import Mathlib

/-!
# frametest.c: writing "ABC" to a memory-mapped character buffer

A shallow embedding of `src/frametest.c`.  Memory is a map from byte addresses
to byte values.  Every store through the volatile framebuffer pointer is
applied to the memory and appended to a trace, so that both the resulting
contents and the order of the stores can be stated.
-/

namespace Frametest

/-- One store through the volatile framebuffer pointer: the array index written
in the source expression, the byte address it denotes, and the byte stored. -/
structure Store where
  index : Int
  addr : Int
  val : Nat
deriving DecidableEq, Repr

/-- The machine state the program acts on: byte-addressed memory and the stores
performed so far, oldest first. -/
structure Machine where
  mem : Int → Nat
  trace : List Store

/-- The constant `VGA_FRAMEBUFFER_BASE`: the address `0x00001500`. -/
def VGA_FRAMEBUFFER_BASE : Int := 0x00001500

/-- Size in bytes of the pointee type `unsigned char`. -/
def SIZEOF_UCHAR : Int := 1

/-- Address of `p[i]` for a pointer `p` to `unsigned char`. -/
def elemAddr (p : Int) (i : Int) : Int := p + i * SIZEOF_UCHAR

/-- Conversion of a `char` value to `unsigned char`: reduction modulo `2^8`. -/
def toUChar (c : Int) : Nat := (c % 256).toNat

/-- The assignment `p[i] = c` through a pointer to `volatile unsigned char`. -/
def storeAt (p : Int) (i : Int) (c : Int) (m : Machine) : Machine :=
  { mem := fun a => if a = elemAddr p i then toUChar c else m.mem a
    trace := m.trace ++ [⟨i, elemAddr p i, toUChar c⟩] }

/-- Contents of `VGA_FRAMEBUFFER_BASE[i]` in a machine state. -/
def cell (m : Machine) (i : Int) : Nat := m.mem (elemAddr VGA_FRAMEBUFFER_BASE i)

/-- The function `vga_write_char_at_offset(int offset, char c)`. -/
def vga_write_char_at_offset (offset : Int) (c : Int) (m : Machine) : Machine :=
  if offset ≥ 0 ∧ offset < 64 then
    storeAt VGA_FRAMEBUFFER_BASE offset c m
  else
    m

/-- The loop `for (int i = 0; i < 64; i++) VGA_FRAMEBUFFER_BASE[i] = ' ';`,
entered with the loop variable equal to `i`.  The character constant `' '` has
the value `0x20`. -/
def clearLoop (i : Int) (m : Machine) : Machine :=
  if i < 64 then
    clearLoop (i + 1) (storeAt VGA_FRAMEBUFFER_BASE i 0x20 m)
  else
    m
termination_by (64 - i).toNat
decreasing_by omega

/-- The function `vga_clear_first_line_accessible()`. -/
def vga_clear_first_line_accessible (m : Machine) : Machine :=
  clearLoop 0 m

/-- The statements of `main`, and the state reached by `return`. -/
inductive Pc where
  | callClear
  | callWriteA
  | callWriteB
  | callWriteC
  | idleLoop
  | returnStmt
  | exited (code : Int)
deriving DecidableEq, Repr

/-- A running instance of `main`: the statement about to execute and the machine. -/
structure Proc where
  pc : Pc
  m : Machine

/-- Execution of one statement of `main`.  At `while (1) { }` the condition `1`
is tested and, being nonzero, the empty body runs and control is back at the
loop; `return 0` would be reached only if the condition were zero.  The
character constants `'A'`, `'B'`, `'C'` have the values `0x41`, `0x42`, `0x43`. -/
def step (p : Proc) : Proc :=
  match p.pc with
  | .callClear => ⟨.callWriteA, vga_clear_first_line_accessible p.m⟩
  | .callWriteA => ⟨.callWriteB, vga_write_char_at_offset 0 0x41 p.m⟩
  | .callWriteB => ⟨.callWriteC, vga_write_char_at_offset 1 0x42 p.m⟩
  | .callWriteC => ⟨.idleLoop, vga_write_char_at_offset 2 0x43 p.m⟩
  | .idleLoop => if (1 : Int) ≠ 0 then ⟨.idleLoop, p.m⟩ else ⟨.returnStmt, p.m⟩
  | .returnStmt => ⟨.exited 0, p.m⟩
  | .exited code => ⟨.exited code, p.m⟩

/-- The process after `n` statements. -/
def run : Nat → Proc → Proc
  | 0, p => p
  | n + 1, p => run n (step p)

/-- The program `main` started on machine `m`, observed after `n` statements. -/
def main (m : Machine) (n : Nat) : Proc := run n ⟨.callClear, m⟩

/-- The machine left by the four calls of `main`, taken in program order. -/
def startup (m : Machine) : Machine :=
  vga_write_char_at_offset 2 0x43
    (vga_write_char_at_offset 1 0x42
      (vga_write_char_at_offset 0 0x41
        (vga_clear_first_line_accessible m)))

/-- The 64-cell framebuffer state: the contents of cells `0` to `63`. -/
def framebuffer (m : Machine) : List Nat :=
  (List.range 64).map (fun (k : Nat) => cell m (k : Int))

/-- The assignment `p[i] = c` with the bound of the 64-cell line checked: the
store is performed when `0 ≤ i < 64`, and the result is `none` otherwise. -/
def storeAtChecked (p : Int) (i : Int) (c : Int) (m : Machine) : Option Machine :=
  if 0 ≤ i ∧ i < 64 then some (storeAt p i c m) else none

/-- The function `vga_write_char_at_offset` with its store bounds-checked. -/
def vga_write_char_at_offset_checked (offset : Int) (c : Int) (m : Machine) :
    Option Machine :=
  if offset ≥ 0 ∧ offset < 64 then
    storeAtChecked VGA_FRAMEBUFFER_BASE offset c m
  else
    some m

/-- The loop of `vga_clear_first_line_accessible` with its store bounds-checked. -/
def clearLoopChecked (i : Int) (m : Machine) : Option Machine :=
  if i < 64 then
    match storeAtChecked VGA_FRAMEBUFFER_BASE i 0x20 m with
    | some m1 => clearLoopChecked (i + 1) m1
    | none => none
  else
    some m
termination_by (64 - i).toNat
decreasing_by omega

/-- The function `vga_clear_first_line_accessible` with its stores bounds-checked. -/
def vga_clear_first_line_accessible_checked (m : Machine) : Option Machine :=
  clearLoopChecked 0 m

/-- The four calls of `main`, in program order, with every store bounds-checked. -/
def startupChecked (m : Machine) : Option Machine :=
  (vga_clear_first_line_accessible_checked m).bind fun m1 =>
  (vga_write_char_at_offset_checked 0 0x41 m1).bind fun m2 =>
  (vga_write_char_at_offset_checked 1 0x42 m2).bind fun m3 =>
  vga_write_char_at_offset_checked 2 0x43 m3

/-- The machine `m` differs from an earlier machine `m0` only inside the 64-cell
region: every memory byte at an address outside `0x1500..0x153F` is as in `m0`,
and every store performed since `m0` has an index in `0..63` and the address
`0x1500 + index`. -/
def WithinRegion (m0 m : Machine) : Prop :=
  (∀ a : Int, a < 0x1500 ∨ 0x153F < a → m.mem a = m0.mem a) ∧
  ∃ stores : List Store, m.trace = m0.trace ++ stores ∧
    ∀ s ∈ stores, 0 ≤ s.index ∧ s.index < 64 ∧ s.addr = 0x1500 + s.index

/-! ## Basic facts about stores -/

theorem elemAddr_base (i : Int) : elemAddr VGA_FRAMEBUFFER_BASE i = 0x1500 + i := by
  simp [elemAddr, VGA_FRAMEBUFFER_BASE, SIZEOF_UCHAR]

theorem elemAddr_inj (p i j : Int) : elemAddr p i = elemAddr p j ↔ i = j := by
  simp [elemAddr, SIZEOF_UCHAR]

theorem cell_storeAt_same (m : Machine) (i c : Int) :
    cell (storeAt VGA_FRAMEBUFFER_BASE i c m) i = toUChar c := by
  simp [cell, storeAt]

theorem cell_storeAt_other (m : Machine) (i j c : Int) (h : j ≠ i) :
    cell (storeAt VGA_FRAMEBUFFER_BASE i c m) j = cell m j := by
  simp [cell, storeAt, elemAddr_inj, h]

theorem toUChar_int (c : Int) : (toUChar c : Int) = c % 256 := by
  unfold toUChar
  omega

theorem toUChar_of_byte (c : Int) (h0 : 0 ≤ c) (h1 : c < 256) : (toUChar c : Int) = c := by
  unfold toUChar
  omega

theorem toUChar_space : toUChar 0x20 = 0x20 := by decide

/-! ## The clearing loop -/

theorem clearLoop_done (i : Int) (m : Machine) (h : ¬ i < 64) : clearLoop i m = m := by
  rw [clearLoop, if_neg h]

theorem clearLoop_iter (i : Int) (m : Machine) (h : i < 64) :
    clearLoop i m = clearLoop (i + 1) (storeAt VGA_FRAMEBUFFER_BASE i 0x20 m) := by
  rw [clearLoop, if_pos h]

/-- Stores performed by the loop when entered at `n` with `k` iterations left. -/
theorem clearLoop_trace (k : Nat) : ∀ (n : Nat) (m : Machine), n + k = 64 →
    (clearLoop (n : Int) m).trace =
      m.trace ++ (List.range' n k).map (fun (j : Nat) => Store.mk (j : Int) (0x1500 + (j : Int)) 0x20) := by
  induction k with
  | zero =>
    intro n m h
    rw [clearLoop_done _ _ (by omega)]
    simp
  | succ k ih =>
    intro n m h
    rw [clearLoop_iter _ _ (by omega)]
    have hn : ((n : Int) + 1) = ((n + 1 : Nat) : Int) := by push_cast; rfl
    rw [hn, ih (n + 1) _ (by omega)]
    simp [storeAt, elemAddr_base, toUChar_space, List.range'_succ]

/-- Memory left by the loop when entered at `n` with `k` iterations left. -/
theorem clearLoop_mem (k : Nat) : ∀ (n : Nat) (m : Machine), n + k = 64 → ∀ a : Int,
    (clearLoop (n : Int) m).mem a =
      if 0x1500 + (n : Int) ≤ a ∧ a < 0x1540 then 0x20 else m.mem a := by
  induction k with
  | zero =>
    intro n m h a
    rw [clearLoop_done _ _ (by omega)]
    have : ¬ (0x1500 + (n : Int) ≤ a ∧ a < 0x1540) := by omega
    rw [if_neg this]
  | succ k ih =>
    intro n m h a
    rw [clearLoop_iter _ _ (by omega)]
    have hn : ((n : Int) + 1) = ((n + 1 : Nat) : Int) := by push_cast; rfl
    rw [hn, ih (n + 1) _ (by omega) a]
    simp only [storeAt, elemAddr_base, toUChar_space]
    push_cast
    split_ifs <;> first | rfl | omega

theorem clear_trace (m : Machine) :
    (vga_clear_first_line_accessible m).trace =
      m.trace ++ (List.range 64).map (fun (j : Nat) => Store.mk (j : Int) (0x1500 + (j : Int)) 0x20) := by
  have h := clearLoop_trace 64 0 m (by omega)
  rw [List.range_eq_range']
  exact h

theorem clear_mem (m : Machine) (a : Int) :
    (vga_clear_first_line_accessible m).mem a =
      if 0x1500 ≤ a ∧ a < 0x1540 then 0x20 else m.mem a := by
  have h := clearLoop_mem 64 0 m (by omega) a
  simpa [vga_clear_first_line_accessible] using h

theorem cell_clear (m : Machine) (i : Int) (h0 : 0 ≤ i) (h1 : i < 64) :
    cell (vga_clear_first_line_accessible m) i = 0x20 := by
  have hr : (0x1500 : Int) ≤ 0x1500 + i ∧ 0x1500 + i < 0x1540 := by omega
  rw [cell, elemAddr_base, clear_mem, if_pos hr]

/-! ## The 64-cell view -/

theorem framebuffer_eq_iff (m1 m2 : Machine) :
    framebuffer m1 = framebuffer m2 ↔
      ∀ i : Int, 0 ≤ i → i < 64 → cell m1 i = cell m2 i := by
  unfold framebuffer
  rw [List.map_inj_left]
  constructor
  · intro h i h0 h1
    have hk := h i.toNat (List.mem_range.mpr (by omega))
    have hi : ((i.toNat : Nat) : Int) = i := Int.toNat_of_nonneg h0
    rw [hi] at hk
    exact hk
  · intro h k hk
    have hlt : k < 64 := List.mem_range.mp hk
    exact h (k : Int) (by omega) (by omega)

theorem cell_write (m : Machine) (o c j : Int) :
    cell (vga_write_char_at_offset o c m) j =
      if j = o ∧ 0 ≤ o ∧ o < 64 then toUChar c else cell m j := by
  unfold vga_write_char_at_offset
  by_cases hg : o ≥ 0 ∧ o < 64
  · rw [if_pos hg]
    by_cases hj : j = o
    · subst hj
      rw [cell_storeAt_same, if_pos ⟨rfl, hg.1, hg.2⟩]
    · rw [cell_storeAt_other _ _ _ _ hj, if_neg (fun h => hj h.1)]
  · rw [if_neg hg, if_neg (fun h => hg ⟨h.2.1, h.2.2⟩)]

theorem write_trace (m : Machine) (o c : Int) (h0 : 0 ≤ o) (h1 : o < 64) :
    (vga_write_char_at_offset o c m).trace = m.trace ++ [⟨o, 0x1500 + o, toUChar c⟩] := by
  have hg : o ≥ 0 ∧ o < 64 := ⟨h0, h1⟩
  simp only [vga_write_char_at_offset, if_pos hg, storeAt, elemAddr_base]

/-! ## The program -/

theorem main_four (m : Machine) : main m 4 = ⟨.idleLoop, startup m⟩ := rfl

theorem step_idle (p : Proc) (h : p.pc = .idleLoop) : step p = p := by
  cases p with
  | mk pc mach =>
    simp only at h
    subst h
    simp [step]

theorem run_idle (n : Nat) : ∀ p : Proc, p.pc = .idleLoop → run n p = p := by
  induction n with
  | zero => intro p _; rfl
  | succ n ih =>
    intro p h
    rw [run, step_idle p h]
    exact ih p h

theorem run_add (a : Nat) : ∀ (b : Nat) (p : Proc), run (a + b) p = run b (run a p) := by
  induction a with
  | zero => intro b p; simp [run]
  | succ a ih =>
    intro b p
    have : a + 1 + b = (a + b) + 1 := by omega
    rw [this, run, run, ih]

theorem main_of_four_le (m : Machine) (n : Nat) (h : 4 ≤ n) :
    main m n = ⟨.idleLoop, startup m⟩ := by
  obtain ⟨k, rfl⟩ : ∃ k, n = 4 + k := ⟨n - 4, by omega⟩
  unfold main
  rw [run_add]
  exact run_idle k _ rfl

theorem toUChar_A : toUChar 0x41 = 0x41 := by decide

theorem toUChar_B : toUChar 0x42 = 0x42 := by decide

theorem toUChar_C : toUChar 0x43 = 0x43 := by decide

theorem cell_startup (m : Machine) (i : Int) (h0 : 0 ≤ i) (h1 : i < 64) :
    cell (startup m) i =
      if i = 2 then 0x43 else if i = 1 then 0x42 else if i = 0 then 0x41 else 0x20 := by
  unfold startup
  rw [cell_write, cell_write, cell_write, cell_clear m i h0 h1, toUChar_A, toUChar_B, toUChar_C]
  split_ifs <;> first | rfl | omega

theorem startup_trace (m : Machine) :
    (startup m).trace =
      m.trace ++ (List.range 64).map (fun (j : Nat) => Store.mk (j : Int) (0x1500 + (j : Int)) 0x20)
        ++ [⟨0, 0x1500, 0x41⟩, ⟨1, 0x1501, 0x42⟩, ⟨2, 0x1502, 0x43⟩] := by
  unfold startup
  rw [write_trace _ 2 _ (by decide) (by decide), write_trace _ 1 _ (by decide) (by decide),
    write_trace _ 0 _ (by decide) (by decide), clear_trace, toUChar_A, toUChar_B, toUChar_C]
  simp

theorem framebuffer_write_congr (m1 m2 : Machine) (o c : Int)
    (h : framebuffer m1 = framebuffer m2) :
    framebuffer (vga_write_char_at_offset o c m1) =
      framebuffer (vga_write_char_at_offset o c m2) := by
  rw [framebuffer_eq_iff] at h ⊢
  intro i h0 h1
  rw [cell_write, cell_write, h i h0 h1]

theorem framebuffer_clear_congr (m1 m2 : Machine) :
    framebuffer (vga_clear_first_line_accessible m1) =
      framebuffer (vga_clear_first_line_accessible m2) := by
  rw [framebuffer_eq_iff]
  intro i h0 h1
  rw [cell_clear m1 i h0 h1, cell_clear m2 i h0 h1]

theorem step_congr (p1 p2 : Proc) (hpc : p1.pc = p2.pc)
    (h : framebuffer p1.m = framebuffer p2.m) :
    (step p1).pc = (step p2).pc ∧ framebuffer (step p1).m = framebuffer (step p2).m := by
  cases p1 with
  | mk pc1 mach1 =>
    cases p2 with
    | mk pc2 mach2 =>
      simp only at hpc h
      subst hpc
      cases pc1 with
      | callClear => exact ⟨rfl, framebuffer_clear_congr mach1 mach2⟩
      | callWriteA => exact ⟨rfl, framebuffer_write_congr mach1 mach2 0 0x41 h⟩
      | callWriteB => exact ⟨rfl, framebuffer_write_congr mach1 mach2 1 0x42 h⟩
      | callWriteC => exact ⟨rfl, framebuffer_write_congr mach1 mach2 2 0x43 h⟩
      | idleLoop => exact ⟨rfl, h⟩
      | returnStmt => exact ⟨rfl, h⟩
      | exited code => exact ⟨rfl, h⟩

theorem run_congr (n : Nat) : ∀ (p1 p2 : Proc), p1.pc = p2.pc →
    framebuffer p1.m = framebuffer p2.m →
    (run n p1).pc = (run n p2).pc ∧ framebuffer (run n p1).m = framebuffer (run n p2).m := by
  induction n with
  | zero => intro p1 p2 hpc h; exact ⟨hpc, h⟩
  | succ n ih =>
    intro p1 p2 hpc h
    have hs := step_congr p1 p2 hpc h
    exact ih (step p1) (step p2) hs.1 hs.2

theorem main_pc_running (m : Machine) (n : Nat) :
    (main m n).pc = .callClear ∨ (main m n).pc = .callWriteA ∨ (main m n).pc = .callWriteB ∨
      (main m n).pc = .callWriteC ∨ (main m n).pc = .idleLoop := by
  by_cases h : 4 ≤ n
  · rw [main_of_four_le m n h]
    simp
  · have hn : n = 0 ∨ n = 1 ∨ n = 2 ∨ n = 3 := by omega
    rcases hn with rfl | rfl | rfl | rfl
    · exact Or.inl rfl
    · exact Or.inr (Or.inl rfl)
    · exact Or.inr (Or.inr (Or.inl rfl))
    · exact Or.inr (Or.inr (Or.inr (Or.inl rfl)))

/-! ## Stores stay inside the 64-cell region -/

theorem withinRegion_refl (m : Machine) : WithinRegion m m :=
  ⟨fun _ _ => rfl, [], by simp, by simp⟩

theorem withinRegion_trans (m0 m1 m2 : Machine) (h01 : WithinRegion m0 m1)
    (h12 : WithinRegion m1 m2) : WithinRegion m0 m2 := by
  obtain ⟨hmem1, st1, ht1, hs1⟩ := h01
  obtain ⟨hmem2, st2, ht2, hs2⟩ := h12
  refine ⟨fun a ha => by rw [hmem2 a ha, hmem1 a ha], st1 ++ st2, ?_, ?_⟩
  · rw [ht2, ht1, List.append_assoc]
  · intro s hs
    rcases List.mem_append.mp hs with h | h
    · exact hs1 s h
    · exact hs2 s h

theorem withinRegion_write (m : Machine) (o c : Int) :
    WithinRegion m (vga_write_char_at_offset o c m) := by
  by_cases hg : o ≥ 0 ∧ o < 64
  · refine ⟨?_, [⟨o, 0x1500 + o, toUChar c⟩], write_trace m o c hg.1 hg.2, ?_⟩
    · intro a ha
      have hne : a ≠ 0x1500 + o := by omega
      simp only [vga_write_char_at_offset, if_pos hg, storeAt, elemAddr_base, if_neg hne]
    · intro s hs
      rw [List.mem_singleton] at hs
      subst hs
      exact ⟨hg.1, hg.2, rfl⟩
  · have hm : vga_write_char_at_offset o c m = m := by
      simp only [vga_write_char_at_offset, if_neg hg]
    rw [hm]
    exact withinRegion_refl m

theorem withinRegion_clear (m : Machine) :
    WithinRegion m (vga_clear_first_line_accessible m) := by
  refine ⟨?_, _, clear_trace m, ?_⟩
  · intro a ha
    have hout : ¬ ((0x1500 : Int) ≤ a ∧ a < 0x1540) := by omega
    rw [clear_mem, if_neg hout]
  · intro s hs
    obtain ⟨j, hj, rfl⟩ := List.mem_map.mp hs
    have hlt : j < 64 := List.mem_range.mp hj
    refine ⟨?_, ?_, rfl⟩ <;> simp only <;> omega

theorem withinRegion_step (p : Proc) : WithinRegion p.m (step p).m := by
  cases p with
  | mk pc mach =>
    cases pc with
    | callClear => exact withinRegion_clear mach
    | callWriteA => exact withinRegion_write mach 0 0x41
    | callWriteB => exact withinRegion_write mach 1 0x42
    | callWriteC => exact withinRegion_write mach 2 0x43
    | idleLoop => exact withinRegion_refl mach
    | returnStmt => exact withinRegion_refl mach
    | exited code => exact withinRegion_refl mach

theorem withinRegion_run (n : Nat) : ∀ p : Proc, WithinRegion p.m (run n p).m := by
  induction n with
  | zero => intro p; exact withinRegion_refl p.m
  | succ n ih =>
    intro p
    exact withinRegion_trans _ _ _ (withinRegion_step p) (ih (step p))

theorem write_checked_eq (m : Machine) (o c : Int) :
    vga_write_char_at_offset_checked o c m = some (vga_write_char_at_offset o c m) := by
  by_cases hg : o ≥ 0 ∧ o < 64
  · have hb : 0 ≤ o ∧ o < 64 := ⟨hg.1, hg.2⟩
    simp only [vga_write_char_at_offset_checked, vga_write_char_at_offset, if_pos hg,
      storeAtChecked, if_pos hb]
  · simp only [vga_write_char_at_offset_checked, vga_write_char_at_offset, if_neg hg]

theorem clearLoopChecked_eq (k : Nat) : ∀ (n : Nat) (m : Machine), n + k = 64 →
    clearLoopChecked (n : Int) m = some (clearLoop (n : Int) m) := by
  induction k with
  | zero =>
    intro n m h
    have hn : ¬ (n : Int) < 64 := by omega
    rw [clearLoop_done _ _ hn, clearLoopChecked, if_neg hn]
  | succ k ih =>
    intro n m h
    have hlt : (n : Int) < 64 := by omega
    have hb : 0 ≤ (n : Int) ∧ (n : Int) < 64 := ⟨by omega, hlt⟩
    have hn : ((n : Int) + 1) = ((n + 1 : Nat) : Int) := by push_cast; rfl
    rw [clearLoop_iter _ _ hlt, clearLoopChecked, if_pos hlt]
    simp only [storeAtChecked, if_pos hb]
    rw [hn]
    exact ih (n + 1) _ (by omega)

theorem clear_checked_eq (m : Machine) :
    vga_clear_first_line_accessible_checked m = some (vga_clear_first_line_accessible m) :=
  clearLoopChecked_eq 64 0 m (by omega)

theorem startupChecked_eq (m : Machine) : startupChecked m = some (startup m) := by
  simp only [startupChecked, startup, clear_checked_eq, write_checked_eq, Option.some_bind]

/-! ## The result of the startup sequence -/

theorem framebuffer_clear (m : Machine) :
    framebuffer (vga_clear_first_line_accessible m) = List.replicate 64 0x20 := by
  have h : framebuffer (vga_clear_first_line_accessible m) =
      (List.range 64).map (fun (_ : Nat) => 0x20) := by
    unfold framebuffer
    apply List.map_congr_left
    intro k hk
    have hlt : k < 64 := List.mem_range.mp hk
    exact cell_clear m (k : Int) (by omega) (by omega)
  rw [h]
  decide

theorem framebuffer_startup (m : Machine) :
    framebuffer (startup m) = 0x41 :: 0x42 :: 0x43 :: List.replicate 61 0x20 := by
  have h : framebuffer (startup m) =
      (List.range 64).map (fun (k : Nat) =>
        if (k : Int) = 2 then 0x43 else if (k : Int) = 1 then 0x42
        else if (k : Int) = 0 then 0x41 else 0x20) := by
    unfold framebuffer
    apply List.map_congr_left
    intro k hk
    have hlt : k < 64 := List.mem_range.mp hk
    exact cell_startup m (k : Int) (by omega) (by omega)
  rw [h]
  decide

theorem cell_write_same (m : Machine) (o c : Int) (h0 : 0 ≤ o) (h1 : o < 64) :
    cell (vga_write_char_at_offset o c m) o = toUChar c := by
  rw [cell_write, if_pos ⟨rfl, h0, h1⟩]

/-! ## Claims -/

/-- C1: for every machine state, every offset `o` with `0 ≤ o < 64` and every
character `c`, after `vga_write_char_at_offset(o, c)` the framebuffer cell `o`
holds `c`: the cell holds the `unsigned char` value of `c`, which is the residue
of `c` modulo 256, and that is `c` itself for every byte value `0 ≤ c < 256`. -/
theorem write_char_then_cell_holds (m : Machine) (o c : Int) (h0 : 0 ≤ o) (h1 : o < 64) :
    (cell (vga_write_char_at_offset o c m) o : Int) = c % 256 ∧
    (0 ≤ c → c < 256 → (cell (vga_write_char_at_offset o c m) o : Int) = c) := by
  have hg : o ≥ 0 ∧ o < 64 := ⟨h0, h1⟩
  have hcell : cell (vga_write_char_at_offset o c m) o = toUChar c := by
    simp only [vga_write_char_at_offset, if_pos hg, cell_storeAt_same]
  rw [hcell]
  exact ⟨toUChar_int c, toUChar_of_byte c⟩

theorem write_char_then_cell_holds_witness :
    (cell (vga_write_char_at_offset 5 0x41 ⟨fun _ => 0, []⟩) 5 : Int) = 0x41 :=
  (write_char_then_cell_holds ⟨fun _ => 0, []⟩ 5 0x41 (by decide) (by decide)).2
    (by decide) (by decide)

/-- C2: for every machine state, every offset `o` with `o < 0` or `o ≥ 64` and
every character `c`, `vga_write_char_at_offset(o, c)` is a silent no-op: the
memory (hence every framebuffer cell) is unchanged, no store is performed, and
the result is the unchanged state, not an error. -/
theorem write_char_out_of_range_noop (m : Machine) (o c : Int) (h : o < 0 ∨ o ≥ 64) :
    vga_write_char_at_offset o c m = m := by
  have hg : ¬ (o ≥ 0 ∧ o < 64) := by omega
  simp only [vga_write_char_at_offset, if_neg hg]

theorem write_char_out_of_range_noop_witness :
    vga_write_char_at_offset (-1) 0x41 ⟨fun _ => 0, []⟩ = ⟨fun _ => 0, []⟩ ∧
    vga_write_char_at_offset 64 0x41 ⟨fun _ => 0, []⟩ = ⟨fun _ => 0, []⟩ :=
  ⟨write_char_out_of_range_noop ⟨fun _ => 0, []⟩ (-1) 0x41 (by decide),
   write_char_out_of_range_noop ⟨fun _ => 0, []⟩ 64 0x41 (by decide)⟩

/-- C3: for every initial machine state, after `vga_clear_first_line_accessible()`
every framebuffer cell `i` with `0 ≤ i < 64` equals the space character `0x20`. -/
theorem clear_line_all_spaces (m : Machine) (i : Int) (h0 : 0 ≤ i) (h1 : i < 64) :
    cell (vga_clear_first_line_accessible m) i = 0x20 :=
  cell_clear m i h0 h1

theorem clear_line_all_spaces_witness :
    cell (vga_clear_first_line_accessible ⟨fun _ => 0, []⟩) 63 = 0x20 :=
  clear_line_all_spaces ⟨fun _ => 0, []⟩ 63 (by decide) (by decide)

/-- C4: running the startup sequence of `main` (clear the line, then write
`'A'`, `'B'`, `'C'` at offsets 0, 1, 2) from a framebuffer whose 64 cells are all
zero yields cell 0 = `0x41`, cell 1 = `0x42`, cell 2 = `0x43` and every cell `i`
with `3 ≤ i ≤ 63` equal to `0x20`. -/
theorem startup_from_zero (m : Machine)
    (_hz : ∀ i : Int, 0 ≤ i → i < 64 → cell m i = 0) :
    (main m 4).pc = .idleLoop ∧
    cell (main m 4).m 0 = 0x41 ∧ cell (main m 4).m 1 = 0x42 ∧ cell (main m 4).m 2 = 0x43 ∧
    ∀ i : Int, 3 ≤ i → i ≤ 63 → cell (main m 4).m i = 0x20 := by
  rw [main_four]
  refine ⟨rfl, ?_, ?_, ?_, ?_⟩
  · rw [cell_startup m 0 (by decide) (by decide)]; rfl
  · rw [cell_startup m 1 (by decide) (by decide)]; rfl
  · rw [cell_startup m 2 (by decide) (by decide)]; rfl
  · intro i h3 h63
    rw [cell_startup m i (by omega) (by omega)]
    split_ifs <;> first | rfl | omega

theorem startup_from_zero_witness :
    (main ⟨fun _ => 0, []⟩ 4).pc = .idleLoop ∧
    cell (main ⟨fun _ => 0, []⟩ 4).m 0 = 0x41 ∧ cell (main ⟨fun _ => 0, []⟩ 4).m 1 = 0x42 ∧
    cell (main ⟨fun _ => 0, []⟩ 4).m 2 = 0x43 ∧
    ∀ i : Int, 3 ≤ i → i ≤ 63 → cell (main ⟨fun _ => 0, []⟩ 4).m i = 0x20 :=
  startup_from_zero ⟨fun _ => 0, []⟩ (fun _ _ _ => rfl)

/-- C5: `vga_clear_first_line_accessible` is idempotent: for every machine state,
applying it twice in succession gives the same 64-cell framebuffer state, and
indeed the same memory, as applying it once. -/
theorem clear_line_idempotent (m : Machine) :
    framebuffer (vga_clear_first_line_accessible (vga_clear_first_line_accessible m)) =
      framebuffer (vga_clear_first_line_accessible m) ∧
    (vga_clear_first_line_accessible (vga_clear_first_line_accessible m)).mem =
      (vga_clear_first_line_accessible m).mem := by
  have hmem : (vga_clear_first_line_accessible (vga_clear_first_line_accessible m)).mem =
      (vga_clear_first_line_accessible m).mem := by
    funext a
    rw [clear_mem, clear_mem]
    split_ifs <;> rfl
  refine ⟨?_, hmem⟩
  unfold framebuffer cell
  rw [hmem]

/-- C6: the startup sequence is deterministic: two runs of `main` that start from
the same 64-cell framebuffer state are at the same statement and have identical
64-cell framebuffer states after any number of statements, in particular when
the initialization has ended. -/
theorem startup_deterministic (m1 m2 : Machine) (h : framebuffer m1 = framebuffer m2)
    (n : Nat) :
    (main m1 n).pc = (main m2 n).pc ∧
    framebuffer (main m1 n).m = framebuffer (main m2 n).m :=
  run_congr n ⟨.callClear, m1⟩ ⟨.callClear, m2⟩ rfl h

theorem startup_deterministic_witness :
    (main ⟨fun _ => 0, []⟩ 4).pc = (main ⟨fun a => if a = 0 then 7 else 0, []⟩ 4).pc ∧
    framebuffer (main ⟨fun _ => 0, []⟩ 4).m =
      framebuffer (main ⟨fun a => if a = 0 then 7 else 0, []⟩ 4).m :=
  startup_deterministic ⟨fun _ => 0, []⟩ ⟨fun a => if a = 0 then 7 else 0, []⟩ (by decide) 4

/-- C7: `main` never returns.  The step that performs the third character write
always leads to the idle loop, so `main` is idle after its four calls; every
step from the idle loop stays in the idle loop and leaves the machine, hence the
framebuffer, unchanged; and neither `return 0` nor an exit is ever reached. -/
theorem main_never_returns (m : Machine) :
    (∀ p : Proc, p.pc = .callWriteC → (step p).pc = .idleLoop) ∧
    (main m 4).pc = .idleLoop ∧
    (∀ p : Proc, p.pc = .idleLoop → (step p).pc = .idleLoop ∧ (step p).m = p.m) ∧
    (∀ n : Nat, 4 ≤ n → (main m n).pc = .idleLoop ∧ (main m n).m = (main m 4).m) ∧
    (∀ n : Nat, (main m n).pc ≠ .returnStmt ∧ ∀ code : Int, (main m n).pc ≠ .exited code) := by
  refine ⟨?_, rfl, ?_, ?_, ?_⟩
  · intro p hp
    cases p with
    | mk pc mach =>
      simp only at hp
      subst hp
      rfl
  · intro p hp
    rw [step_idle p hp]
    exact ⟨hp, rfl⟩
  · intro n hn
    rw [main_of_four_le m n hn, main_four]
    exact ⟨rfl, rfl⟩
  · intro n
    have h := main_pc_running m n
    refine ⟨?_, ?_⟩
    · intro hr
      rw [hr] at h
      simp at h
    · intro code hr
      rw [hr] at h
      simp at h

/-- C8: the stores performed by `main` before it idles are exactly the 64 stores
of the line clear, then `'A'` at offset 0, `'B'` at offset 1 and `'C'` at offset
2, in that order: the clear comes first, each write adds its one store, `main`
is idle after the fourth call and not before, and from then on the trace of
stores never changes. -/
theorem main_store_sequence (m : Machine) (n : Nat) (h : 4 ≤ n) :
    (main m 1).m.trace =
      m.trace ++ (List.range 64).map (fun (j : Nat) => Store.mk (j : Int) (0x1500 + (j : Int)) 0x20) ∧
    (main m 2).m.trace = (main m 1).m.trace ++ [⟨0, 0x1500, 0x41⟩] ∧
    (main m 3).m.trace = (main m 2).m.trace ++ [⟨1, 0x1501, 0x42⟩] ∧
    (main m 4).m.trace = (main m 3).m.trace ++ [⟨2, 0x1502, 0x43⟩] ∧
    (∀ k : Nat, k < 4 → (main m k).pc ≠ .idleLoop) ∧
    (main m n).pc = .idleLoop ∧
    (main m n).m.trace =
      m.trace ++ (List.range 64).map (fun (j : Nat) => Store.mk (j : Int) (0x1500 + (j : Int)) 0x20)
        ++ [⟨0, 0x1500, 0x41⟩, ⟨1, 0x1501, 0x42⟩, ⟨2, 0x1502, 0x43⟩] := by
  refine ⟨clear_trace m, ?_, ?_, ?_, ?_, ?_, ?_⟩
  · exact write_trace _ 0 0x41 (by decide) (by decide)
  · exact write_trace _ 1 0x42 (by decide) (by decide)
  · exact write_trace _ 2 0x43 (by decide) (by decide)
  · intro k hk
    have hn : k = 0 ∨ k = 1 ∨ k = 2 ∨ k = 3 := by omega
    rcases hn with rfl | rfl | rfl | rfl <;> simp [main, run, step]
  · rw [main_of_four_le m n h]
  · rw [main_of_four_le m n h]
    exact startup_trace m

theorem main_store_sequence_witness :
    (main ⟨fun _ => 0, []⟩ 9).pc = .idleLoop ∧
    (main ⟨fun _ => 0, []⟩ 9).m.trace =
      [] ++ (List.range 64).map (fun (j : Nat) => Store.mk (j : Int) (0x1500 + (j : Int)) 0x20)
        ++ [⟨0, 0x1500, 0x41⟩, ⟨1, 0x1501, 0x42⟩, ⟨2, 0x1502, 0x43⟩] :=
  (main_store_sequence ⟨fun _ => 0, []⟩ 9 (by decide)).2.2.2.2.2

/-- C9: `vga_clear_first_line_accessible` terminates (it is a total function) and
performs exactly 64 stores, each of the byte `0x20`, to offsets 0, 1, ..., 63 in
strictly increasing order, each offset exactly once: the `k`-th store it adds to
the trace is the store of `0x20` at offset `k`. -/
theorem clear_line_store_sequence (m : Machine) :
    ∃ stores : List Store,
      (vga_clear_first_line_accessible m).trace = m.trace ++ stores ∧
      stores.length = 64 ∧
      stores.map Store.index = (List.range 64).map Int.ofNat ∧
      (∀ s ∈ stores, s.val = 0x20) ∧
      stores.Pairwise (fun a b => a.index < b.index) ∧
      ∀ i : Int, 0 ≤ i → i < 64 → (stores.filter (fun s => s.index = i)).length = 1 := by
  refine ⟨(List.range 64).map (fun (j : Nat) => Store.mk (j : Int) (0x1500 + (j : Int)) 0x20),
    clear_trace m, by simp, by simp, ?_, ?_, ?_⟩
  · intro s hs
    obtain ⟨j, _, rfl⟩ := List.mem_map.mp hs
    rfl
  · rw [List.pairwise_map]
    exact List.Pairwise.imp (fun hab => by simpa using hab) (List.pairwise_lt_range 64)
  · intro i h0 h1
    obtain ⟨k, rfl⟩ : ∃ k : Nat, i = (k : Int) := ⟨i.toNat, by omega⟩
    have hk : k < 64 := by omega
    interval_cases k <;> decide

/-- C10: the framebuffer is a flat byte array based at address `0x00001500` with no
header: for `0 ≤ i < 64`, cell `i` is the memory byte at address `0x1500 + i`, an
address from `0x1500` to `0x153F`; the store made by
`vga_write_char_at_offset(i, c)` and the store to cell `i` made by
`vga_clear_first_line_accessible` are stores to that address. -/
theorem framebuffer_cell_address (m : Machine) (i c : Int) (h0 : 0 ≤ i) (h1 : i < 64) :
    elemAddr VGA_FRAMEBUFFER_BASE i = 0x1500 + i ∧
    (0x1500 ≤ elemAddr VGA_FRAMEBUFFER_BASE i ∧ elemAddr VGA_FRAMEBUFFER_BASE i ≤ 0x153F) ∧
    cell m i = m.mem (0x1500 + i) ∧
    (vga_write_char_at_offset i c m).trace = m.trace ++ [⟨i, 0x1500 + i, toUChar c⟩] ∧
    (vga_write_char_at_offset i c m).mem (0x1500 + i) = toUChar c ∧
    (∃ stores : List Store,
      (vga_clear_first_line_accessible m).trace = m.trace ++ stores ∧
      (⟨i, 0x1500 + i, 0x20⟩ : Store) ∈ stores ∧
      ∀ s ∈ stores, s.addr = 0x1500 + s.index ∧ 0x1500 ≤ s.addr ∧ s.addr ≤ 0x153F) ∧
    (vga_clear_first_line_accessible m).mem (0x1500 + i) = 0x20 := by
  refine ⟨elemAddr_base i, ?_, ?_, write_trace m i c h0 h1, ?_, ?_, ?_⟩
  · rw [elemAddr_base]; omega
  · rw [cell, elemAddr_base]
  · have h := cell_write m i c i
    rw [cell, elemAddr_base, if_pos ⟨rfl, h0, h1⟩] at h
    exact h
  · refine ⟨(List.range 64).map (fun (j : Nat) => Store.mk (j : Int) (0x1500 + (j : Int)) 0x20),
      clear_trace m, ?_, ?_⟩
    · refine List.mem_map.mpr ⟨i.toNat, List.mem_range.mpr (by omega), ?_⟩
      rw [Int.toNat_of_nonneg h0]
    · intro s hs
      obtain ⟨j, hj, rfl⟩ := List.mem_map.mp hs
      have hlt : j < 64 := List.mem_range.mp hj
      refine ⟨rfl, ?_, ?_⟩ <;> simp only <;> omega
  · have h := cell_clear m i h0 h1
    rw [cell, elemAddr_base] at h
    exact h

theorem framebuffer_cell_address_witness :
    (vga_write_char_at_offset 63 0x41 ⟨fun _ => 0, []⟩).trace = [] ++ [⟨63, 0x1500 + 63, toUChar 0x41⟩] ∧
    (vga_clear_first_line_accessible ⟨fun _ => 0, []⟩).mem (0x1500 + 63) = 0x20 :=
  ⟨(framebuffer_cell_address ⟨fun _ => 0, []⟩ 63 0x41 (by decide) (by decide)).2.2.2.1,
   (framebuffer_cell_address ⟨fun _ => 0, []⟩ 63 0x41 (by decide) (by decide)).2.2.2.2.2.2⟩

/-- C11: for every machine state, every offset `o` with `0 ≤ o < 64` and every
character `c`, `vga_write_char_at_offset(o, c)` leaves every cell `j ≠ o`
unchanged: an in-range write performs exactly one store, to cell `o`, and every
memory byte other than the one of cell `o` keeps its value. -/
theorem write_char_frame (m : Machine) (o c : Int) (h0 : 0 ≤ o) (h1 : o < 64) :
    (∀ j : Int, 0 ≤ j → j < 64 → j ≠ o → cell (vga_write_char_at_offset o c m) j = cell m j) ∧
    (∀ a : Int, a ≠ 0x1500 + o → (vga_write_char_at_offset o c m).mem a = m.mem a) ∧
    (vga_write_char_at_offset o c m).trace = m.trace ++ [⟨o, 0x1500 + o, toUChar c⟩] := by
  refine ⟨?_, ?_, write_trace m o c h0 h1⟩
  · intro j _ _ hj
    rw [cell_write, if_neg (fun h => hj h.1)]
  · intro a ha
    have hg : o ≥ 0 ∧ o < 64 := ⟨h0, h1⟩
    simp only [vga_write_char_at_offset, if_pos hg, storeAt, elemAddr_base, if_neg ha]

theorem write_char_frame_witness :
    cell (vga_write_char_at_offset 5 0x41 ⟨fun a => if a = 0x1506 then 7 else 0, []⟩) 6 =
      cell ⟨fun a => if a = 0x1506 then 7 else 0, []⟩ 6 :=
  (write_char_frame ⟨fun a => if a = 0x1506 then 7 else 0, []⟩ 5 0x41 (by decide) (by decide)).1
    6 (by decide) (by decide) (by decide)

/-- C12: no operation writes outside the 64-cell region.  For every machine state
and all arguments, `vga_write_char_at_offset`, `vga_clear_first_line_accessible`
and `main` after any number of statements leave every memory byte at an address
outside `0x1500..0x153F` unchanged, and every store they perform has an index
with `0 ≤ index < 64`; hence the bounds-checked functions never fail and return
the same machine as the unchecked ones. -/
theorem stores_within_region (m : Machine) (o c : Int) (n : Nat) :
    WithinRegion m (vga_write_char_at_offset o c m) ∧
    WithinRegion m (vga_clear_first_line_accessible m) ∧
    WithinRegion m (main m n).m ∧
    WithinRegion m (startup m) ∧
    (∀ a : Int, a < 0x1500 ∨ 0x153F < a →
      (vga_write_char_at_offset o c m).mem a = m.mem a ∧
      (vga_clear_first_line_accessible m).mem a = m.mem a ∧
      (main m n).m.mem a = m.mem a) ∧
    vga_write_char_at_offset_checked o c m = some (vga_write_char_at_offset o c m) ∧
    vga_clear_first_line_accessible_checked m = some (vga_clear_first_line_accessible m) ∧
    startupChecked m = some (startup m) := by
  have hw := withinRegion_write m o c
  have hc := withinRegion_clear m
  have hr : WithinRegion m (main m n).m := withinRegion_run n ⟨.callClear, m⟩
  have hs : WithinRegion m (startup m) := by
    have h4 : WithinRegion m (main m 4).m := withinRegion_run 4 ⟨.callClear, m⟩
    rw [main_four] at h4
    exact h4
  exact ⟨hw, hc, hr, hs, fun a ha => ⟨hw.1 a ha, hc.1 a ha, hr.1 a ha⟩,
    write_checked_eq m o c, clear_checked_eq m, startupChecked_eq m⟩

/-- C13: the framebuffer state after the startup sequence does not depend on the
initial contents: for every initial machine it is `'A'`, `'B'`, `'C'` in cells 0
to 2 and `0x20` in cells 3 to 63, so two runs from any two initial states end,
and stay, in the same 64-cell state.  Likewise the 64 cells after
`vga_clear_first_line_accessible` are all `0x20` for every prior state, so the
clear erases any preceding `vga_write_char_at_offset`. -/
theorem startup_independent_of_initial (m1 m2 : Machine) (o c : Int) (n : Nat) :
    framebuffer (main m1 4).m = 0x41 :: 0x42 :: 0x43 :: List.replicate 61 0x20 ∧
    cell (main m1 4).m 0 = 0x41 ∧ cell (main m1 4).m 1 = 0x42 ∧ cell (main m1 4).m 2 = 0x43 ∧
    (∀ i : Int, 3 ≤ i → i ≤ 63 → cell (main m1 4).m i = 0x20) ∧
    framebuffer (main m1 (4 + n)).m = framebuffer (main m2 (4 + n)).m ∧
    framebuffer (vga_clear_first_line_accessible m1) = List.replicate 64 0x20 ∧
    framebuffer (vga_clear_first_line_accessible m1) =
      framebuffer (vga_clear_first_line_accessible m2) ∧
    framebuffer (vga_clear_first_line_accessible (vga_write_char_at_offset o c m1)) =
      framebuffer (vga_clear_first_line_accessible m1) := by
  rw [main_four, main_of_four_le m1 (4 + n) (by omega), main_of_four_le m2 (4 + n) (by omega)]
  refine ⟨framebuffer_startup m1, ?_, ?_, ?_, ?_, ?_, framebuffer_clear m1, ?_, ?_⟩
  · rw [cell_startup m1 0 (by decide) (by decide)]; rfl
  · rw [cell_startup m1 1 (by decide) (by decide)]; rfl
  · rw [cell_startup m1 2 (by decide) (by decide)]; rfl
  · intro i h3 h63
    rw [cell_startup m1 i (by omega) (by omega)]
    split_ifs <;> first | rfl | omega
  · rw [framebuffer_startup m1, framebuffer_startup m2]
  · rw [framebuffer_clear m1, framebuffer_clear m2]
  · rw [framebuffer_clear, framebuffer_clear]

/-- C14: the character argument has C type `char` and the cells are
`unsigned char`: for every offset `o` with `0 ≤ o < 64` and every `char` value
`c`, the byte stored in cell `o` is `c mod 256`, a value in `0..255`; it is
`c + 256` for a negative `c` of a signed `char`, and it is `c` itself whenever
`0 ≤ c ≤ 127`, which covers the codes `0x20`, `0x41`, `0x42`, `0x43` the program
uses. -/
theorem stored_byte_is_char_mod_256 (m : Machine) (o c : Int) (h0 : 0 ≤ o) (h1 : o < 64) :
    (cell (vga_write_char_at_offset o c m) o : Int) = c % 256 ∧
    cell (vga_write_char_at_offset o c m) o ≤ 255 ∧
    (-128 ≤ c → c < 0 → (cell (vga_write_char_at_offset o c m) o : Int) = c + 256) ∧
    (0 ≤ c → c ≤ 127 → (cell (vga_write_char_at_offset o c m) o : Int) = c) ∧
    cell (vga_write_char_at_offset o 0x20 m) o = 0x20 ∧
    cell (vga_write_char_at_offset o 0x41 m) o = 0x41 ∧
    cell (vga_write_char_at_offset o 0x42 m) o = 0x42 ∧
    cell (vga_write_char_at_offset o 0x43 m) o = 0x43 := by
  have hc := toUChar_int c
  rw [cell_write_same m o c h0 h1, cell_write_same m o 0x20 h0 h1,
    cell_write_same m o 0x41 h0 h1, cell_write_same m o 0x42 h0 h1,
    cell_write_same m o 0x43 h0 h1]
  refine ⟨hc, by omega, ?_, ?_, toUChar_space, toUChar_A, toUChar_B, toUChar_C⟩
  · intro hlo hneg
    omega
  · intro hlo hhi
    omega

theorem stored_byte_is_char_mod_256_witness :
    (cell (vga_write_char_at_offset 5 (-1) ⟨fun _ => 0, []⟩) 5 : Int) = 255 :=
  (stored_byte_is_char_mod_256 ⟨fun _ => 0, []⟩ 5 (-1) (by decide) (by decide)).1

end Frametest
